import Mathlib

/-!
# Verification of broom's branch classification and fast-forward engine

A shallow embedding of `src/git/branches.ts`. Every external `git` invocation
is modelled by an oracle `GitExec : List String → GitResult` giving the exit
success and the raw stdout of that command; the functions of the source file
become Lean functions of that oracle. The JavaScript string operations the
source uses (`trim`, `split`, `startsWith`, `slice`, `includes`, `replace` of
a leading literal, `parseInt`) are modelled by executable functions on the
character list underlying a `String`.
-/

namespace Broom

/-- The value the source's `git` helper resolves to: exit success and stdout. -/
structure GitResult where
  success : Bool
  stdout : String
deriving DecidableEq

/-- The external git collaborator: an argument vector to its result. -/
abbrev GitExec : Type := List String → GitResult

/- ## Models of the JavaScript string operations used by the source -/

/-- Characters JavaScript `trim` strips from both ends (the git output handled
here is ASCII, so `Char.isWhitespace` is the right class). -/
def wsStrip (l : List Char) : List Char :=
  ((l.dropWhile Char.isWhitespace).reverse.dropWhile Char.isWhitespace).reverse

/-- Model of `s.trim()`. -/
def jsTrim (s : String) : String := ⟨wsStrip s.data⟩

/-- Split a character list on a single separator character (every occurrence,
keeping empty pieces), as `s.split(c)` does for a one-character separator. -/
def splitOnCharL (c : Char) : List Char → List (List Char)
  | [] => [[]]
  | x :: xs =>
    if x = c then [] :: splitOnCharL c xs
    else
      match splitOnCharL c xs with
      | [] => [[x]]
      | h :: t => (x :: h) :: t

/-- Split on a blank line, i.e. the two-character separator `"\n\n"`, scanning
left to right and resuming after each match, as `s.split('\n\n')` does. -/
def splitOnDoubleNl : List Char → List (List Char)
  | '\n' :: '\n' :: rest => [] :: splitOnDoubleNl rest
  | x :: rest =>
    match splitOnDoubleNl rest with
    | [] => [[x]]
    | h :: t => (x :: h) :: t
  | [] => [[]]

/-- Model of `s.split('\n')`. -/
def jsSplitNl (s : String) : List String := (splitOnCharL '\n' s.data).map String.mk

/-- Model of `s.split('\t')`. -/
def jsSplitTab (s : String) : List String := (splitOnCharL '\t' s.data).map String.mk

/-- Model of `s.split('\n\n')`. -/
def jsSplitBlank (s : String) : List String := (splitOnDoubleNl s.data).map String.mk

/-- `needle` occurs contiguously inside `hay` (model of `hay.includes(needle)`). -/
def isInfixOfB (needle : List Char) : List Char → Bool
  | [] => needle.isEmpty
  | x :: t => needle.isPrefixOf (x :: t) || isInfixOfB needle t

/-- Model of `s.includes(sub)`. -/
def jsIncludes (s sub : String) : Bool := isInfixOfB sub.data s.data

/-- Model of `s.startsWith(pre)`. -/
def jsStartsWith (s pre : String) : Bool := pre.data.isPrefixOf s.data

/-- Model of `s.slice(n)` (all strings handled here are ASCII, so character
count and JavaScript's UTF-16 index agree). -/
def jsSlice (s : String) (n : Nat) : String := ⟨s.data.drop n⟩

/-- Maximal runs of non-whitespace characters, left to right: `acc` holds the
reversed current run. -/
def wordsGo (acc : List Char) : List Char → List (List Char)
  | [] => if acc.isEmpty then [] else [acc.reverse]
  | c :: rest =>
    if c.isWhitespace then
      if acc.isEmpty then wordsGo [] rest else acc.reverse :: wordsGo [] rest
    else wordsGo (c :: acc) rest

/-- Model of `s.split(/\s+/)[i] ?? ''` for the trimmed strings the source
applies it to: on a trimmed string, splitting on runs of whitespace yields
exactly the maximal non-whitespace runs (and `[""][i]` for the empty string
gives `undefined`, hence `''`, matching the empty word list here). -/
def jsSplitWsGet (s : String) (i : Nat) : String :=
  ⟨((wordsGo [] s.data).get? i).getD []⟩

/-- The decimal value of a digit run. -/
def digitsToNat (l : List Char) : Nat :=
  l.foldl (fun n c => 10 * n + (c.toNat - 48)) 0

/-- Model of `parseInt(s, 10) > 0` on an already-trimmed string: an optional
sign, then the longest leading digit run; no digits gives `NaN`, and
`NaN > 0` is `false`, as is any non-positive value. -/
def jsParseIntPos (s : String) : Bool :=
  match s.data with
  | '-' :: _ => false
  | '+' :: rest => decide (0 < digitsToNat (rest.takeWhile Char.isDigit))
  | l => decide (0 < digitsToNat (l.takeWhile Char.isDigit))

/-- Model of `Number.isNaN(parseInt(s, 10))` on an already-trimmed string:
true when no digit follows the optional sign. -/
def jsParseIntNaN (s : String) : Bool :=
  match s.data with
  | '-' :: rest => (rest.takeWhile Char.isDigit).isEmpty
  | '+' :: rest => (rest.takeWhile Char.isDigit).isEmpty
  | l => (l.takeWhile Char.isDigit).isEmpty

/- ## The `git` helper -/

/-- The source's `git(args)` helper: runs the command and trims its stdout. -/
def git (exec : GitExec) (args : List String) : GitResult :=
  let o := exec args
  ⟨o.success, jsTrim o.stdout⟩

/- ## Data model (`branches.ts`) -/

/-- `BranchStatus` from the source: the closed status enumeration. -/
inductive BranchStatus where
  | merged
  | unpushed
  | needsRebase
  | active
deriving DecidableEq

/-- `BranchInfo` from the source. -/
structure BranchInfo where
  name : String
  status : BranchStatus
deriving DecidableEq

/-- `AnalyzeProgress` from the source. -/
structure AnalyzeProgress where
  branch : String
  current : Nat
  total : Nat
deriving DecidableEq

/-- `WorktreeInfo` from the source: absolute path, and the checked-out branch
or `none` for a detached HEAD. -/
structure WorktreeInfo where
  path : String
  branch : Option String
deriving DecidableEq

/-- `FastForwardResult` from the source. -/
structure FastForwardResult where
  branch : String
  updated : Bool
  error : Option String
deriving DecidableEq

/- ## Branch enumeration -/

/-- `getLocalBranches`: split the branch listing on newlines, trim each line,
keep the nonempty ones that are not `main`. -/
def getLocalBranches (exec : GitExec) : List String :=
  ((jsSplitNl (git exec ["branch", "--list", "--format=%(refname:short)"]).stdout).map
      jsTrim).filter
    (fun l => !l.data.isEmpty && l != "main")

/- ## Worktrees -/

/-- One pass of the source's per-entry line loop: the last `worktree `-line
sets the path, the last `branch refs/heads/`-line sets the branch
(`'worktree '.length` is 9, `'branch refs/heads/'.length` is 18). -/
def parseWorktreeEntry (entry : String) : String × Option String :=
  (jsSplitNl entry).foldl
    (fun acc line =>
      let acc1 := if jsStartsWith line "worktree " then (jsSlice line 9, acc.2) else acc
      if jsStartsWith line "branch refs/heads/" then (acc1.1, some (jsSlice line 18)) else acc1)
    ("", none)

/-- JavaScript `Map.set`: replace the value at an existing key in place,
otherwise append the pair. -/
def mapSet (m : List (String × WorktreeInfo)) (k : String) (v : WorktreeInfo) :
    List (String × WorktreeInfo) :=
  if m.any (fun p => p.1 == k) then m.map (fun p => if p.1 == k then (k, v) else p)
  else m ++ [(k, v)]

/-- The porcelain entries the source iterates: blocks split on a blank line,
keeping those with nonempty trimmed content. -/
def worktreeEntries (exec : GitExec) : List String :=
  (jsSplitBlank (git exec ["worktree", "list", "--porcelain"]).stdout).filter
    (fun e => !(jsTrim e).data.isEmpty)

/-- The body of the source's per-entry loop: entries with a nonempty path and
a nonempty, non-detached branch are `Map.set` into the map (`if (path &&
branch)`), all others leave it unchanged. -/
def wtStep (map : List (String × WorktreeInfo)) (entry : String) :
    List (String × WorktreeInfo) :=
  match parseWorktreeEntry entry with
  | (path, some branch) =>
    if !path.data.isEmpty && !branch.data.isEmpty then mapSet map branch ⟨path, some branch⟩
    else map
  | (_, none) => map

/-- `getWorktrees`: skip the first entry (the primary worktree — the source's
`isFirst` flag), and fold the remaining entries through `wtStep`. -/
def getWorktrees (exec : GitExec) : List (String × WorktreeInfo) :=
  let stdout := (git exec ["worktree", "list", "--porcelain"]).stdout
  if stdout.data.isEmpty then []
  else ((worktreeEntries exec).drop 1).foldl wtStep []

/- ## Fast-forward -/

/-- The `--format` string of the branch listing used by `fastForwardBranches`. -/
def ffFormat : String := "%(refname:short)\t%(upstream:short)\t%(upstream:track)\t%(HEAD)"

/-- The listing lines `fastForwardBranches` iterates: split on newlines,
trimmed, nonempty. -/
def ffLines (exec : GitExec) : List String :=
  ((jsSplitNl (git exec ["branch", "--list", ffFormat]).stdout).map jsTrim).filter
    (fun l => !l.data.isEmpty)

/-- The four tab-separated fields of one listing line (`parts[k] ?? ''`). -/
structure FfFields where
  branch : String
  upstream : String
  track : String
  head : String
deriving DecidableEq

/-- Split one line on tabs and read the four fields. -/
def ffFields (line : String) : FfFields :=
  let parts := jsSplitTab line
  { branch := parts.headD ""
    upstream := ((parts.get? 1).getD "")
    track := ((parts.get? 2).getD "")
    head := ((parts.get? 3).getD "") }

/-- The conjunction of the source's skip guards, on the parsed fields: not the
checked-out branch, not in a linked worktree, has an upstream that is not
gone, and the track text says behind but not ahead. -/
def ffEligibleF (worktreeBranches : List String) (f : FfFields) : Bool :=
  !(f.head == "*") &&
  !(worktreeBranches.contains f.branch) &&
  !f.upstream.data.isEmpty &&
  !(f.track == "[gone]") &&
  jsIncludes f.track "behind" &&
  !(jsIncludes f.track "ahead")

/-- `ffEligibleF` on a raw line. -/
def ffEligible (worktreeBranches : List String) (line : String) : Bool :=
  ffEligibleF worktreeBranches (ffFields line)

/-- Model of `upstream.replace(/^origin\x2f/, '')`: drop a leading `origin/`. -/
def stripOrigin (u : String) : String :=
  if jsStartsWith u "origin/" then jsSlice u 7 else u

/-- The fetch-based ref advance for one eligible line and its per-branch
result: `updated` on success, else the trimmed output as the error. -/
def ffAttempt (exec : GitExec) (line : String) : FastForwardResult :=
  let f := ffFields line
  let r := git exec ["fetch", "origin", stripOrigin f.upstream ++ ":" ++ f.branch]
  if r.success then ⟨f.branch, true, none⟩ else ⟨f.branch, false, some r.stdout⟩

/-- `fastForwardBranches`: the source's loop over the listing lines, skipping
ineligible lines and appending one result per attempted line. -/
def fastForwardBranches (exec : GitExec) : List FastForwardResult :=
  let worktreeBranches := (getWorktrees exec).map Prod.fst
  (ffLines exec).foldl
    (fun results line =>
      if ffEligible worktreeBranches line then results ++ [ffAttempt exec line]
      else results)
    []

/- ## Merge detection -/

/-- `isMergedByAncestry`: the exit success of `merge-base --is-ancestor`. -/
def isMergedByAncestry (exec : GitExec) (branch : String) : Bool :=
  (git exec ["merge-base", "--is-ancestor", branch, "main"]).success

/-- The argument vector of the cherry-mark log command. -/
def cherryArgs (branch : String) : List String :=
  ["log", "--left-right", "--cherry-mark", "--format=%m", "main..." ++ branch]

/-- The nonempty lines of the cherry-mark log output. -/
def cherryLines (exec : GitExec) (branch : String) : List String :=
  (jsSplitNl (git exec (cherryArgs branch)).stdout).filter (fun l => !l.data.isEmpty)

/-- `isMergedByCherryMark`: empty output is merged; otherwise the branch-side
marks (`>` unique, `=` equivalent) must either be absent or all `=`. -/
def isMergedByCherryMark (exec : GitExec) (branch : String) : Bool :=
  let stdout := (git exec (cherryArgs branch)).stdout
  if stdout.data.isEmpty then true
  else
    let lines := (jsSplitNl stdout).filter (fun l => !l.data.isEmpty)
    let branchSide := lines.filter (fun l => l == ">" || l == "=")
    if branchSide.length = 0 then true
    else branchSide.all (fun l => l == "=")

/-- The per-file blob comparison of `isMergedByContent`: the third
whitespace-separated column of `ls-tree` at the branch and at `main`; the file
fails only when it has a blob at the branch tip that differs from `main`'s. -/
def contentFileOk (exec : GitExec) (branch file : String) : Bool :=
  let branchBlob := git exec ["ls-tree", branch, "--", file]
  let mainBlob := git exec ["ls-tree", "main", "--", file]
  let branchSha := jsSplitWsGet branchBlob.stdout 2
  let mainSha := jsSplitWsGet mainBlob.stdout 2
  !(!branchSha.data.isEmpty && branchSha != mainSha)

/-- The nonempty lines of the `diff-tree` file listing. -/
def contentFiles (exec : GitExec) (branch : String) : List String :=
  let mergeBase := (git exec ["merge-base", branch, "main"]).stdout
  (jsSplitNl (git exec ["diff-tree", "-r", "--name-only", mergeBase, branch]).stdout).filter
    (fun l => !l.data.isEmpty)

/-- `isMergedByContent`: not merged when the merge-base lookup fails, when the
diff listing fails, or when it is empty; otherwise every touched file must
pass `contentFileOk`. -/
def isMergedByContent (exec : GitExec) (branch : String) : Bool :=
  let mergeBaseResult := git exec ["merge-base", branch, "main"]
  if !mergeBaseResult.success then false
  else
    let changedResult :=
      git exec ["diff-tree", "-r", "--name-only", mergeBaseResult.stdout, branch]
    if !changedResult.success || changedResult.stdout.data.isEmpty then false
    else
      ((jsSplitNl changedResult.stdout).filter (fun l => !l.data.isEmpty)).all
        (contentFileOk exec branch)

/-- The content-equivalence strategy as §4.1 of the spec words it, for
comparison with `isMergedByContent`: if the merge-base lookup fails, not
merged; otherwise merged exactly when every touched file that still exists at
the branch tip has an identical blob in trunk (vacuously merged when the
branch touched no files). -/
def contentMergedSpec (exec : GitExec) (branch : String) : Bool :=
  let mergeBaseResult := git exec ["merge-base", branch, "main"]
  if !mergeBaseResult.success then false
  else (contentFiles exec branch).all (contentFileOk exec branch)

/- ## Divergence classification -/

/-- `hasUnpushedCommits`: true when `rev-parse --verify origin/<branch>`
fails, else when the ahead count parses positive. -/
def hasUnpushedCommits (exec : GitExec) (branch : String) : Bool :=
  let trackingResult := git exec ["rev-parse", "--verify", "origin/" ++ branch]
  if !trackingResult.success then true
  else
    jsParseIntPos
      (git exec ["rev-list", "--count", "origin/" ++ branch ++ ".." ++ branch]).stdout

/-- `needsRebase`: the `<branch>..main` count parses positive. -/
def needsRebase (exec : GitExec) (branch : String) : Bool :=
  jsParseIntPos (git exec ["rev-list", "--count", branch ++ "..main"]).stdout

/-- `classifyBranch`: the source's first-match-wins chain. -/
def classifyBranch (exec : GitExec) (branch : String) : BranchStatus :=
  if isMergedByAncestry exec branch then .merged
  else if isMergedByCherryMark exec branch then .merged
  else if isMergedByContent exec branch then .merged
  else if hasUnpushedCommits exec branch then .unpushed
  else if needsRebase exec branch then .needsRebase
  else .active

/- ## Concurrent analysis -/

/-- `analyzeBranches`: classify every enumerated branch; `Promise.all` returns
the per-branch values in index order. -/
def analyzeBranches (exec : GitExec) : List BranchInfo :=
  let branches := getLocalBranches exec
  if branches.length = 0 then []
  else branches.map (fun b => ⟨b, classifyBranch exec b⟩)

/-- The concurrency model: tasks finish in the order given by `order` (a
permutation of the branch indices). The completion stream lists, in that
order, each task's branch paired with its `BranchInfo`. -/
def completions (exec : GitExec) (branches : List String) (order : List Nat) :
    List (Nat × BranchInfo) :=
  (order.filter (fun j => j < branches.length)).map
    (fun j =>
      let b := branches.getD j ""
      (j, ⟨b, classifyBranch exec b⟩))

/-- The progress events, in completion order: the i-th finished task reports
the post-increment counter `i + 1` and the fixed total. -/
def progressEvents (exec : GitExec) (branches : List String) (order : List Nat) :
    List AnalyzeProgress :=
  (List.range (completions exec branches order).length).zipWith
    (fun i c => ⟨c.2.name, i + 1, branches.length⟩)
    (completions exec branches order)

/-- `analyzeBranches` under an explicit completion order: `Promise.all`
assembles the result buffer by task index, looking each index up in the
completion stream; the progress stream is in completion order. -/
def analyzeSchedule (exec : GitExec) (order : List Nat) :
    List BranchInfo × List AnalyzeProgress :=
  let branches := getLocalBranches exec
  if branches.length = 0 then ([], [])
  else
    ((List.range branches.length).map
        (fun j => ((completions exec branches order).lookup j).getD ⟨"", .active⟩),
      progressEvents exec branches order)

/-! ## Theorems -/

/-- Claim C3: `classifyBranch` assigns exactly one status by first-match-wins
priority: merged when any of the three strategies succeeds; else unpushed iff
the branch has no remote-tracking counterpart (`rev-parse --verify` fails) or
its ahead count parses positive; else needs-rebase iff the `<branch>..main`
count parses positive; else active. In particular a branch that is both
merged and has unpushed commits is reported merged. -/
theorem classify_priority (exec : GitExec) (b : String) :
    (classifyBranch exec b = .merged ↔
      (isMergedByAncestry exec b = true ∨ isMergedByCherryMark exec b = true ∨
        isMergedByContent exec b = true)) ∧
    (classifyBranch exec b = .unpushed ↔
      (isMergedByAncestry exec b = false ∧ isMergedByCherryMark exec b = false ∧
        isMergedByContent exec b = false ∧ hasUnpushedCommits exec b = true)) ∧
    (classifyBranch exec b = .needsRebase ↔
      (isMergedByAncestry exec b = false ∧ isMergedByCherryMark exec b = false ∧
        isMergedByContent exec b = false ∧ hasUnpushedCommits exec b = false ∧
        needsRebase exec b = true)) ∧
    (classifyBranch exec b = .active ↔
      (isMergedByAncestry exec b = false ∧ isMergedByCherryMark exec b = false ∧
        isMergedByContent exec b = false ∧ hasUnpushedCommits exec b = false ∧
        needsRebase exec b = false)) ∧
    (hasUnpushedCommits exec b = true ↔
      ((git exec ["rev-parse", "--verify", "origin/" ++ b]).success = false ∨
        jsParseIntPos
          (git exec ["rev-list", "--count", "origin/" ++ b ++ ".." ++ b]).stdout = true)) ∧
    (needsRebase exec b = true ↔
      jsParseIntPos (git exec ["rev-list", "--count", b ++ "..main"]).stdout = true) := by
  have hup : hasUnpushedCommits exec b = true ↔
      ((git exec ["rev-parse", "--verify", "origin/" ++ b]).success = false ∨
        jsParseIntPos
          (git exec ["rev-list", "--count", "origin/" ++ b ++ ".." ++ b]).stdout = true) := by
    unfold hasUnpushedCommits
    cases h : (git exec ["rev-parse", "--verify", "origin/" ++ b]).success <;> simp [h]
  refine ⟨?_, ?_, ?_, ?_, hup, Iff.rfl⟩ <;>
    · unfold classifyBranch
      cases h1 : isMergedByAncestry exec b <;>
        cases h2 : isMergedByCherryMark exec b <;>
          cases h3 : isMergedByContent exec b <;>
            cases h4 : hasUnpushedCommits exec b <;>
              cases h5 : needsRebase exec b <;> simp


theorem cherry_aux (L : List String) :
    (if (L.filter (fun l => l == ">" || l == "=")).length = 0 then true
     else (L.filter (fun l => l == ">" || l == "=")).all (fun l => l == "=")) = true ↔
      ∀ l ∈ L, l ≠ ">" := by
  by_cases hz : (L.filter (fun l => l == ">" || l == "=")).length = 0
  · rw [if_pos hz]
    simp only [List.length_eq_zero, List.filter_eq_nil_iff] at hz
    refine iff_of_true rfl ?_
    intro l hl hgt
    have := hz l hl
    simp [hgt] at this
  · simp only [if_neg hz, List.all_eq_true, List.mem_filter]
    constructor
    · intro hall l hl hgt
      have := hall l ⟨hl, by simp [hgt]⟩
      rw [hgt] at this
      simp at this
    · intro hne l hp
      rcases hp with ⟨hl, hor⟩
      have hne' := hne l hl
      simp only [Bool.or_eq_true, beq_iff_eq] at hor
      rcases hor with h | h
      · exact absurd h hne'
      · simp [h]

/-- Claim C8: the equivalent-patch strategy reports a branch merged exactly
when no line of the cherry-mark log is the unique-mark `>`; a branch that
contributes zero unique commits — including zero commits at all (an empty
line list) — is reported merged. -/
theorem cherry_no_unique_iff (exec : GitExec) (b : String) :
    (isMergedByCherryMark exec b = true ↔ ∀ l ∈ cherryLines exec b, l ≠ ">") ∧
    (cherryLines exec b = [] → isMergedByCherryMark exec b = true) := by
  have key : isMergedByCherryMark exec b = true ↔ ∀ l ∈ cherryLines exec b, l ≠ ">" := by
    unfold isMergedByCherryMark cherryLines
    cases h : (git exec (cherryArgs b)).stdout.data.isEmpty
    · simp only [h, Bool.false_eq_true, if_false]
      exact cherry_aux _
    · simp only [h, if_true, true_iff]
      have hdata : (git exec (cherryArgs b)).stdout.data = [] := by
        simpa [List.isEmpty_iff] using h
      intro l hl
      rw [show (git exec (cherryArgs b)).stdout = ⟨[]⟩ from by
          cases hs : (git exec (cherryArgs b)).stdout; simp_all] at hl
      simp [jsSplitNl, splitOnCharL, List.filter] at hl
  refine ⟨key, fun hnil => key.mpr ?_⟩
  rw [hnil]
  simp


theorem parseNaN_not_pos (s : String) (h : jsParseIntNaN s = true) :
    jsParseIntPos s = false := by
  unfold jsParseIntNaN at h
  unfold jsParseIntPos
  split at h
  · simp
  · rw [List.isEmpty_iff] at h
    simp [h, digitsToNat]
  · rw [List.isEmpty_iff] at h
    simp [h, digitsToNat]

/-- Claim C10: when the tracking ref resolves but the ahead-count and
behind-trunk `rev-list --count` queries yield non-numeric (e.g. empty)
output, `hasUnpushedCommits` and `needsRebase` both return false, so a
non-merged branch is steered to `active` instead of raising an error. -/
theorem divergence_nonnumeric_inconclusive (exec : GitExec) (b : String)
    (htrack : (git exec ["rev-parse", "--verify", "origin/" ++ b]).success = true)
    (hahead :
      jsParseIntNaN (git exec ["rev-list", "--count", "origin/" ++ b ++ ".." ++ b]).stdout =
        true)
    (hbehind : jsParseIntNaN (git exec ["rev-list", "--count", b ++ "..main"]).stdout = true) :
    hasUnpushedCommits exec b = false ∧ needsRebase exec b = false ∧
      (isMergedByAncestry exec b = false → isMergedByCherryMark exec b = false →
        isMergedByContent exec b = false → classifyBranch exec b = .active) := by
  have h1 : hasUnpushedCommits exec b = false := by
    unfold hasUnpushedCommits
    simp [htrack, parseNaN_not_pos _ hahead]
  have h2 : needsRebase exec b = false := by
    unfold needsRebase
    exact parseNaN_not_pos _ hbehind
  refine ⟨h1, h2, fun ha hc hco => ?_⟩
  unfold classifyBranch
  simp [ha, hc, hco, h1, h2]


/-- A repository where `origin/feature` resolves but both `rev-list --count`
queries fail (empty stdout), the cherry-mark log shows a unique branch
commit, and every other command fails. -/
def execNonNumeric : GitExec := fun args =>
  if args = ["rev-parse", "--verify", "origin/feature"] then ⟨true, "abc123"⟩
  else if args = cherryArgs "feature" then ⟨true, ">"⟩
  else ⟨false, ""⟩

/-- Claim C10, witnessed at a concrete repository: `origin/feature` resolves,
both count queries fail with empty output, and `feature` (not merged by any
strategy) classifies as active. -/
theorem divergence_nonnumeric_inconclusive_witness :
    hasUnpushedCommits execNonNumeric "feature" = false ∧
      needsRebase execNonNumeric "feature" = false ∧
      classifyBranch execNonNumeric "feature" = .active := by
  obtain ⟨h1, h2, h3⟩ :=
    divergence_nonnumeric_inconclusive execNonNumeric "feature" (by decide) (by decide)
      (by decide)
  exact ⟨h1, h2, h3 (by decide) (by decide) (by decide)⟩

/-- Claim C2 as amended: the trunk branch `main` never appears in any
`BranchInfo` produced by `analyzeBranches` (the enumeration filters it
out). -/
theorem trunk_excluded_amended (exec : GitExec) :
    (analyzeBranches exec).all (fun i => !(i.name == "main")) = true := by
  unfold analyzeBranches
  by_cases h : (getLocalBranches exec).length = 0
  · simp [h]
  · rw [if_neg h]
    simp only [List.all_eq_true]
    intro i hi
    obtain ⟨b, hb, rfl⟩ := List.mem_map.mp hi
    unfold getLocalBranches at hb
    simp only [List.mem_filter, Bool.and_eq_true] at hb
    exact hb.2.2

/-- A repository with a linked worktree at `/wt` having `main` checked out. -/
def execTrunkWorktree : GitExec := fun args =>
  if args = ["worktree", "list", "--porcelain"] then
    ⟨true,
      "worktree /repo\nHEAD 1111\nbranch refs/heads/feature\n\nworktree /wt\nHEAD 2222\nbranch refs/heads/main\n"⟩
  else ⟨false, ""⟩

/-- A repository with `feature` checked out and `main` strictly behind its
upstream `origin/main`, with no linked worktrees. -/
def execTrunkBehind : GitExec := fun args =>
  if args = ["worktree", "list", "--porcelain"] then ⟨true, ""⟩
  else if args = ["branch", "--list", ffFormat] then
    ⟨true, "feature\torigin/feature\t\t*\nmain\torigin/main\t[behind 2]\t \n"⟩
  else if args = ["fetch", "origin", "main:main"] then ⟨true, ""⟩
  else ⟨false, ""⟩

/-- Claim C2 fails as stated for the other two collections: a linked worktree
with `main` checked out puts `main` into the worktree map, and a repository
where `main` is not checked out and strictly behind `origin/main` produces a
`FastForwardResult` for `main`. -/
theorem trunk_exclusion_cex :
    getWorktrees execTrunkWorktree = [("main", ⟨"/wt", some "main"⟩)] ∧
      fastForwardBranches execTrunkBehind = [⟨"main", true, none⟩] :=
  ⟨by decide, by decide⟩

theorem contentFileOk_iff (exec : GitExec) (b f : String) :
    contentFileOk exec b f = true ↔
      ((jsSplitWsGet (git exec ["ls-tree", b, "--", f]).stdout 2).data ≠ [] →
        jsSplitWsGet (git exec ["ls-tree", b, "--", f]).stdout 2 =
          jsSplitWsGet (git exec ["ls-tree", "main", "--", f]).stdout 2) := by
  unfold contentFileOk
  cases h1 : (jsSplitWsGet (git exec ["ls-tree", b, "--", f]).stdout 2).data.isEmpty <;>
    cases h2 : jsSplitWsGet (git exec ["ls-tree", b, "--", f]).stdout 2 ==
        jsSplitWsGet (git exec ["ls-tree", "main", "--", f]).stdout 2 <;>
      simp_all [List.isEmpty_iff, bne]

theorem content_characterization (exec : GitExec) (b : String) :
    isMergedByContent exec b =
      ((git exec ["merge-base", b, "main"]).success &&
        ((git exec ["diff-tree", "-r", "--name-only",
            (git exec ["merge-base", b, "main"]).stdout, b]).success &&
          (!(git exec ["diff-tree", "-r", "--name-only",
              (git exec ["merge-base", b, "main"]).stdout, b]).stdout.data.isEmpty &&
            (contentFiles exec b).all (contentFileOk exec b)))) := by
  unfold isMergedByContent contentFiles
  cases hmb : (git exec ["merge-base", b, "main"]).success <;>
    cases hdt : (git exec ["diff-tree", "-r", "--name-only",
        (git exec ["merge-base", b, "main"]).stdout, b]).success <;>
      cases hso : (git exec ["diff-tree", "-r", "--name-only",
          (git exec ["merge-base", b, "main"]).stdout, b]).stdout.data.isEmpty <;>
        simp [hmb, hdt, hso]

/-- Claim C7 as amended: the content-equivalence strategy reports merged
exactly when the merge-base lookup succeeds, the `diff-tree` listing succeeds
and is nonempty, and every touched file that still has a blob at the branch
tip has the identical blob at `main`; a failed merge-base lookup reports not
merged. -/
theorem content_merged_iff (exec : GitExec) (b : String) :
    (isMergedByContent exec b = true ↔
      ((git exec ["merge-base", b, "main"]).success = true ∧
        (git exec ["diff-tree", "-r", "--name-only",
            (git exec ["merge-base", b, "main"]).stdout, b]).success = true ∧
        (git exec ["diff-tree", "-r", "--name-only",
            (git exec ["merge-base", b, "main"]).stdout, b]).stdout.data ≠ [] ∧
        ∀ f ∈ contentFiles exec b,
          (jsSplitWsGet (git exec ["ls-tree", b, "--", f]).stdout 2).data ≠ [] →
            jsSplitWsGet (git exec ["ls-tree", b, "--", f]).stdout 2 =
              jsSplitWsGet (git exec ["ls-tree", "main", "--", f]).stdout 2)) ∧
    ((git exec ["merge-base", b, "main"]).success = false →
      isMergedByContent exec b = false) := by
  constructor
  · rw [content_characterization]
    simp only [Bool.and_eq_true, Bool.not_eq_true', List.all_eq_true, List.isEmpty_eq_false,
      contentFileOk_iff]
  · intro hmb
    rw [content_characterization, hmb]
    simp

/-- A repository where the merge base of `feature` and `main` resolves and the
branch's `diff-tree` against it succeeds listing no touched files. -/
def execContentVacuous : GitExec := fun args =>
  if args = ["merge-base", "feature", "main"] then ⟨true, "abc123"⟩
  else if args = ["diff-tree", "-r", "--name-only", "abc123", "feature"] then ⟨true, ""⟩
  else ⟨false, ""⟩

/-- Claim C7 fails as stated when the branch touched no files: the diff
listing is empty, so the spec's universally-quantified condition holds
vacuously, yet `isMergedByContent` reports not merged. -/
theorem content_vacuous_cex :
    isMergedByContent execContentVacuous "feature" = false ∧
      contentMergedSpec execContentVacuous "feature" = true :=
  ⟨by decide, by decide⟩


/-- Claim C1 as amended: a failed `merge-base --is-ancestor` makes the
ancestry strategy report not merged, and a failed `merge-base` or `diff-tree`
makes the content strategy report not merged; classification is total, so
every branch gets one of the four statuses and no strategy throws. (The
cherry-mark strategy, by contrast, ignores exit status — see the
counterexample.) -/
theorem strategy_fail_semantics (exec : GitExec) (b : String) :
    ((git exec ["merge-base", "--is-ancestor", b, "main"]).success = false →
      isMergedByAncestry exec b = false) ∧
    ((git exec ["merge-base", b, "main"]).success = false →
      isMergedByContent exec b = false) ∧
    ((git exec ["diff-tree", "-r", "--name-only",
        (git exec ["merge-base", b, "main"]).stdout, b]).success = false →
      isMergedByContent exec b = false) ∧
    (classifyBranch exec b = .merged ∨ classifyBranch exec b = .unpushed ∨
      classifyBranch exec b = .needsRebase ∨ classifyBranch exec b = .active) := by
  refine ⟨fun h => h, fun h => ?_, fun h => ?_, ?_⟩
  · rw [content_characterization, h]
    simp
  · rw [content_characterization, h]
    simp
  · cases h : classifyBranch exec b <;> simp

/-- A repository where every git command fails with empty output (for
instance, a repository whose `main` branch does not exist). -/
def execAllFail : GitExec := fun _ => ⟨false, ""⟩

/-- Claim C1 fails as stated for the equivalent-patch strategy: when the
cherry-mark log command fails with empty stdout (for instance when `main`
does not exist), the strategy reports merged, not "not merged", and the
branch classifies as merged. -/
theorem cherry_fail_open_cex :
    (git execAllFail (cherryArgs "feature")).success = false ∧
      isMergedByCherryMark execAllFail "feature" = true ∧
      classifyBranch execAllFail "feature" = .merged :=
  ⟨by decide, by decide, by decide⟩

theorem foldl_push_filterMap {α β : Type} (p : α → Bool) (f : α → β) :
    ∀ (l : List α) (acc : List β),
      l.foldl (fun r x => if p x then r ++ [f x] else r) acc = acc ++ (l.filter p).map f := by
  intro l
  induction l with
  | nil => simp
  | cons x t ih =>
    intro acc
    cases h : p x <;> simp [h, ih, List.filter_cons]

/-- `fastForwardBranches` is: attempt exactly the eligible listing lines, in
order. -/
theorem fastForwardBranches_eq (exec : GitExec) :
    fastForwardBranches exec =
      ((ffLines exec).filter (ffEligible ((getWorktrees exec).map Prod.fst))).map
        (ffAttempt exec) := by
  unfold fastForwardBranches
  exact (foldl_push_filterMap _ _ _ []).trans (by simp)

/-- Claim C6: for every attempted line, a failed fetch-based ref advance
yields that branch's own `FastForwardResult` with `updated = false` and the
error text attached; the pass is the map over all eligible lines, so one
branch's failure never prevents the remaining branches from being
processed. -/
theorem fastForward_failure_isolated (exec : GitExec) :
    (∀ line,
      (git exec ["fetch", "origin",
          stripOrigin (ffFields line).upstream ++ ":" ++ (ffFields line).branch]).success =
          false →
        ffAttempt exec line =
          ⟨(ffFields line).branch, false,
            some (git exec ["fetch", "origin",
                stripOrigin (ffFields line).upstream ++ ":" ++ (ffFields line).branch]).stdout⟩) ∧
    fastForwardBranches exec =
      ((ffLines exec).filter (ffEligible ((getWorktrees exec).map Prod.fst))).map
        (ffAttempt exec) ∧
    (∀ line ∈ ffLines exec,
      ffEligible ((getWorktrees exec).map Prod.fst) line = true →
        ffAttempt exec line ∈ fastForwardBranches exec) := by
  refine ⟨fun line h => ?_, fastForwardBranches_eq exec, fun line hmem helig => ?_⟩
  · simp [ffAttempt, h]
  · rw [fastForwardBranches_eq]
    exact List.mem_map_of_mem _ (List.mem_filter.mpr ⟨hmem, helig⟩)


theorem data_append (s t : String) : (s ++ t).data = s.data ++ t.data := by
  cases s
  cases t
  rfl

theorem isPrefixOf_subset :
    ∀ {n h : List Char}, n.isPrefixOf h = true → ∀ c ∈ n, c ∈ h := by
  intro n
  induction n with
  | nil => intro h _ c hc; exact absurd hc (List.not_mem_nil c)
  | cons x xs ih =>
    intro h hpre c hc
    cases h with
    | nil => simp [List.isPrefixOf] at hpre
    | cons y ys =>
      simp only [List.isPrefixOf, Bool.and_eq_true, beq_iff_eq] at hpre
      rcases List.mem_cons.mp hc with rfl | hc'
      · exact hpre.1 ▸ List.mem_cons_self _ _
      · exact List.mem_cons_of_mem _ (ih hpre.2 c hc')

theorem isInfixOfB_subset :
    ∀ {h n : List Char}, isInfixOfB n h = true → ∀ c ∈ n, c ∈ h := by
  intro h
  induction h with
  | nil =>
    intro n hinf c hc
    simp only [isInfixOfB, List.isEmpty_iff] at hinf
    subst hinf
    exact absurd hc (List.not_mem_nil c)
  | cons x t ih =>
    intro n hinf c hc
    simp only [isInfixOfB, Bool.or_eq_true] at hinf
    rcases hinf with hpre | hin
    · exact isPrefixOf_subset hpre c hc
    · exact List.mem_cons_of_mem _ (ih hin c hc)

theorem not_includes_of_not_mem (n h : List Char) (c : Char) (hc : c ∈ n) (hn : c ∉ h) :
    isInfixOfB n h = false := by
  cases hinf : isInfixOfB n h
  · rfl
  · exact absurd (isInfixOfB_subset hinf c hc) hn

theorem isPrefixOf_append_self : ∀ (l r : List Char), l.isPrefixOf (l ++ r) = true := by
  intro l
  induction l with
  | nil => intro r; simp
  | cons x xs ih => intro r; simp [List.isPrefixOf, ih]

theorem prefix_isInfixOfB : ∀ {n h : List Char}, n.isPrefixOf h = true → isInfixOfB n h = true := by
  intro n h hpre
  cases h with
  | nil =>
    cases n with
    | nil => rfl
    | cons x xs => simp [List.isPrefixOf] at hpre
  | cons y ys => simp [isInfixOfB, hpre]

theorem isInfixOfB_cons (n : List Char) (x : Char) (t : List Char) (h : isInfixOfB n t = true) :
    isInfixOfB n (x :: t) = true := by
  simp [isInfixOfB, h]

/-- The text git prints for `%(upstream:track)` when the branch is `a` commits
ahead of and `b` commits behind its upstream, `sa` and `sb` being the decimal
renderings of `a` and `b` (empty when in sync, per the spec's reading of the
track field: `[behind N]`, `[ahead N]` or `[ahead N, behind M]`). -/
def gitTrackStr (a b : Nat) (sa sb : String) : String :=
  if a = 0 ∧ b = 0 then ""
  else if b = 0 then "[ahead " ++ sa ++ "]"
  else if a = 0 then "[behind " ++ sb ++ "]"
  else "[ahead " ++ sa ++ ", behind " ++ sb ++ "]"

theorem track_behind_only (a b : Nat) (sa sb : String)
    (hsa : ∀ c ∈ sa.data, c.isDigit = true) (hsb : ∀ c ∈ sb.data, c.isDigit = true) :
    (!(gitTrackStr a b sa sb == "[gone]") &&
        (jsIncludes (gitTrackStr a b sa sb) "behind" &&
          !(jsIncludes (gitTrackStr a b sa sb) "ahead"))) =
      decide (0 < b ∧ a = 0) := by
  unfold gitTrackStr
  by_cases h1 : a = 0 ∧ b = 0
  · rw [if_pos h1]
    have : jsIncludes "" "behind" = false := by decide
    rw [this]
    simp [h1.2]
  · rw [if_neg h1]
    by_cases h2 : b = 0
    · rw [if_pos h2]
      have hni : jsIncludes ("[ahead " ++ sa ++ "]") "behind" = false := by
        apply not_includes_of_not_mem _ _ 'b' (by decide)
        intro hmem
        rw [data_append, data_append] at hmem
        rcases List.mem_append.mp hmem with hm | hm
        · rcases List.mem_append.mp hm with hm' | hm'
          · revert hm'; decide
          · exact absurd (hsa _ hm') (by decide)
        · revert hm; decide
      rw [hni]
      simp [h2]
    · rw [if_neg h2]
      by_cases h3 : a = 0
      · rw [if_pos h3]
        have h4 : (("[behind " ++ sb ++ "]" : String) == "[gone]") = false := by
          apply beq_eq_false_iff_ne.mpr
          intro heq
          have hd : (("[behind " ++ sb ++ "]" : String)).data = "[gone]".data :=
            congrArg String.data heq
          rw [data_append, data_append] at hd
          injection hd with hd1 hd'
          injection hd' with hd2 hd''
          exact absurd hd2 (by decide)
        have h5 : jsIncludes ("[behind " ++ sb ++ "]") "behind" = true := by
          unfold jsIncludes
          rw [data_append, data_append]
          show isInfixOfB "behind".data
              ('[' :: ("behind".data ++ (' ' :: (sb.data ++ "]".data)))) = true
          exact isInfixOfB_cons _ _ _ (prefix_isInfixOfB (isPrefixOf_append_self _ _))
        have h6 : jsIncludes ("[behind " ++ sb ++ "]") "ahead" = false := by
          apply not_includes_of_not_mem _ _ 'a' (by decide)
          intro hmem
          rw [data_append, data_append] at hmem
          rcases List.mem_append.mp hmem with hm | hm
          · rcases List.mem_append.mp hm with hm' | hm'
            · revert hm'; decide
            · exact absurd (hsb _ hm') (by decide)
          · revert hm; decide
        rw [h4, h5, h6]
        simp [Nat.pos_of_ne_zero h2, h3]
      · rw [if_neg h3]
        have h7 : jsIncludes ("[ahead " ++ sa ++ ", behind " ++ sb ++ "]") "ahead" = true := by
          unfold jsIncludes
          rw [data_append, data_append, data_append, data_append]
          show isInfixOfB "ahead".data
              ('[' :: ("ahead".data ++
                (' ' :: (sa.data ++ (", behind ".data ++ (sb.data ++ "]".data)))))) = true
          exact isInfixOfB_cons _ _ _ (prefix_isInfixOfB (isPrefixOf_append_self _ _))
        rw [h7]
        simp [h3]

/-- Claim C5: `fastForwardBranches` attempts exactly the eligible listing
lines — not the checked-out branch, not checked out in a linked worktree,
upstream present and not gone, and (for a well-formed track field over digit
strings) strictly behind: behind-count positive and ahead-count zero.
Ineligible lines produce no result entry at all. -/
theorem fastForward_eligibility (exec : GitExec) :
    fastForwardBranches exec =
      ((ffLines exec).filter (ffEligible ((getWorktrees exec).map Prod.fst))).map
        (ffAttempt exec) ∧
    (∀ (W : List String) (br up hd : String) (a b : Nat) (sa sb : String),
      (∀ c ∈ sa.data, c.isDigit = true) → (∀ c ∈ sb.data, c.isDigit = true) →
        ffEligibleF W ⟨br, up, gitTrackStr a b sa sb, hd⟩ =
          (!(hd == "*") && (!(W.contains br) && (!up.data.isEmpty &&
            decide (0 < b ∧ a = 0))))) := by
  refine ⟨fastForwardBranches_eq exec, fun W br up hd a b sa sb hsa hsb => ?_⟩
  unfold ffEligibleF
  simp only [Bool.and_assoc]
  rw [track_behind_only a b sa sb hsa hsb]


theorem mapSet_keys_nodup (m : List (String × WorktreeInfo)) (k : String) (v : WorktreeInfo)
    (h : (m.map Prod.fst).Nodup) : ((mapSet m k v).map Prod.fst).Nodup := by
  unfold mapSet
  by_cases hany : m.any (fun p => p.1 == k) = true
  · rw [if_pos hany]
    have heq :
        ((m.map fun p => if p.1 == k then (k, v) else p).map Prod.fst) = m.map Prod.fst := by
      rw [List.map_map]
      apply List.map_congr_left
      intro p _
      by_cases hp : (p.1 == k) = true
      · simp only [Function.comp, hp, if_pos]
        exact (beq_iff_eq.mp hp).symm
      · simp [Function.comp, hp]
    rw [heq]
    exact h
  · rw [if_neg hany]
    have hk : k ∉ m.map Prod.fst := by
      intro hmem
      obtain ⟨p, hp, hpk⟩ := List.mem_map.mp hmem
      exact hany (List.any_eq_true.mpr ⟨p, hp, by simp [hpk]⟩)
    simp only [List.map_append, List.map_cons, List.map_nil]
    exact List.Nodup.append h (List.nodup_singleton k) (by
      intro a ha hb
      rw [List.mem_singleton] at hb
      exact hk (hb ▸ ha))

theorem mem_mapSet (m : List (String × WorktreeInfo)) (k : String) (v : WorktreeInfo)
    (p : String × WorktreeInfo) (hp : p ∈ mapSet m k v) : p ∈ m ∨ p = (k, v) := by
  unfold mapSet at hp
  by_cases hany : m.any (fun q => q.1 == k) = true
  · rw [if_pos hany] at hp
    obtain ⟨q, hq, hqe⟩ := List.mem_map.mp hp
    by_cases hk : (q.1 == k) = true
    · rw [if_pos hk] at hqe
      exact Or.inr hqe.symm
    · rw [if_neg hk] at hqe
      exact Or.inl (hqe ▸ hq)
  · rw [if_neg hany] at hp
    rcases List.mem_append.mp hp with h | h
    · exact Or.inl h
    · exact Or.inr (List.mem_singleton.mp h)

theorem wtStep_some (map : List (String × WorktreeInfo)) (entry path branch : String)
    (h : parseWorktreeEntry entry = (path, some branch)) :
    wtStep map entry =
      if !path.data.isEmpty && !branch.data.isEmpty then
        mapSet map branch ⟨path, some branch⟩
      else map := by
  unfold wtStep
  rw [h]

theorem wtStep_none (map : List (String × WorktreeInfo)) (entry : String) (s : String)
    (h : parseWorktreeEntry entry = (s, none)) : wtStep map entry = map := by
  unfold wtStep
  rw [h]

/-- The invariant each worktree-map entry satisfies relative to the entry
list the map was built from. -/
def WtEntryOk (E : List String) (p : String × WorktreeInfo) : Prop :=
  p.2.branch = some p.1 ∧ p.2.path.data ≠ [] ∧ p.1.data ≠ [] ∧
    ∃ entry ∈ E, parseWorktreeEntry entry = (p.2.path, some p.1)

theorem getWorktrees_fold (E0 : List String) :
    ∀ (E : List String), (∀ e ∈ E, e ∈ E0) →
      ∀ (m₀ : List (String × WorktreeInfo)),
        (m₀.map Prod.fst).Nodup → (∀ p ∈ m₀, WtEntryOk E0 p) →
          ((E.foldl wtStep m₀).map Prod.fst).Nodup ∧
            ∀ p ∈ E.foldl wtStep m₀, WtEntryOk E0 p := by
  intro E
  induction E with
  | nil => intro _ m₀ h1 h2; exact ⟨h1, h2⟩
  | cons e E' ih =>
    intro hE m₀ h1 h2
    simp only [List.foldl_cons]
    refine ih (fun x hx => hE x (List.mem_cons_of_mem e hx)) (wtStep m₀ e) ?_ ?_
    · cases hparse : parseWorktreeEntry e with
      | mk path ob =>
        cases ob with
        | none => rw [wtStep_none m₀ e path hparse]; exact h1
        | some branch =>
          rw [wtStep_some m₀ e path branch hparse]
          by_cases hcond : (!path.data.isEmpty && !branch.data.isEmpty) = true
          · rw [if_pos hcond]
            exact mapSet_keys_nodup _ _ _ h1
          · rw [if_neg hcond]
            exact h1
    · cases hparse : parseWorktreeEntry e with
      | mk path ob =>
        cases ob with
        | none => rw [wtStep_none m₀ e path hparse]; exact h2
        | some branch =>
          rw [wtStep_some m₀ e path branch hparse]
          by_cases hcond : (!path.data.isEmpty && !branch.data.isEmpty) = true
          · rw [if_pos hcond]
            intro p hp
            rcases mem_mapSet _ _ _ p hp with hm | rfl
            · exact h2 p hm
            · have hc := hcond
              simp only [Bool.and_eq_true, Bool.not_eq_true', List.isEmpty_eq_false] at hc
              exact ⟨rfl, hc.1, hc.2, e, hE e (List.mem_cons_self e E'), by rw [hparse]⟩
          · rw [if_neg hcond]
            exact h2
    


theorem mem_mapSet_insert (m : List (String × WorktreeInfo)) (k : String) (v : WorktreeInfo) :
    (k, v) ∈ mapSet m k v := by
  unfold mapSet
  by_cases hany : m.any (fun p => p.1 == k) = true
  · rw [if_pos hany]
    obtain ⟨p, hp, hpk⟩ := List.any_eq_true.mp hany
    exact List.mem_map.mpr ⟨p, hp, by simp [hpk]⟩
  · rw [if_neg hany]
    exact List.mem_append.mpr (Or.inr (List.mem_singleton.mpr rfl))

theorem mem_mapSet_other (m : List (String × WorktreeInfo)) (k : String) (v : WorktreeInfo)
    (k0 : String) (v0 : WorktreeInfo) (h : (k0, v0) ∈ m) (hne : k0 ≠ k) :
    (k0, v0) ∈ mapSet m k v := by
  unfold mapSet
  by_cases hany : m.any (fun p => p.1 == k) = true
  · rw [if_pos hany]
    refine List.mem_map.mpr ⟨(k0, v0), h, ?_⟩
    rw [if_neg (by simpa using hne)]
  · rw [if_neg hany]
    exact List.mem_append.mpr (Or.inl h)

theorem wtStep_key_mem (m : List (String × WorktreeInfo)) (e : String) (k : String)
    (h : ∃ wi, (k, wi) ∈ m) : ∃ wi, (k, wi) ∈ wtStep m e := by
  obtain ⟨wi, hwi⟩ := h
  cases hparse : parseWorktreeEntry e with
  | mk path ob =>
    cases ob with
    | none =>
      rw [wtStep_none m e path hparse]
      exact ⟨wi, hwi⟩
    | some branch =>
      rw [wtStep_some m e path branch hparse]
      by_cases hcond : (!path.data.isEmpty && !branch.data.isEmpty) = true
      · rw [if_pos hcond]
        by_cases hk : k = branch
        · subst hk
          exact ⟨⟨path, some k⟩, mem_mapSet_insert m k ⟨path, some k⟩⟩
        · exact ⟨wi, mem_mapSet_other m branch ⟨path, some branch⟩ k wi hwi hk⟩
      · rw [if_neg hcond]
        exact ⟨wi, hwi⟩

theorem fold_key_complete (branch : String) :
    ∀ (E : List String) (m : List (String × WorktreeInfo)),
      ((∃ wi, (branch, wi) ∈ m) ∨
        ∃ e ∈ E, ∃ path, parseWorktreeEntry e = (path, some branch) ∧
          (!path.data.isEmpty && !branch.data.isEmpty) = true) →
      ∃ wi, (branch, wi) ∈ E.foldl wtStep m := by
  intro E
  induction E with
  | nil =>
    intro m h
    rcases h with h | ⟨e, he, -⟩
    · exact h
    · exact absurd he (List.not_mem_nil e)
  | cons e E' ih =>
    intro m h
    simp only [List.foldl_cons]
    apply ih
    rcases h with h | ⟨e', he', path, hpe', hcond'⟩
    · exact Or.inl (wtStep_key_mem m e branch h)
    · rcases List.mem_cons.mp he' with rfl | he''
      · left
        rw [wtStep_some m e' path branch hpe', if_pos hcond']
        exact ⟨⟨path, some branch⟩, mem_mapSet_insert m branch ⟨path, some branch⟩⟩
      · exact Or.inr ⟨e', he'', path, hpe', hcond'⟩

theorem wtStep_val_mem (m : List (String × WorktreeInfo)) (e : String) (path branch : String)
    (hagree : ∀ p', parseWorktreeEntry e = (p', some branch) → p' = path)
    (h : (branch, (⟨path, some branch⟩ : WorktreeInfo)) ∈ m) :
    (branch, (⟨path, some branch⟩ : WorktreeInfo)) ∈ wtStep m e := by
  cases hparse : parseWorktreeEntry e with
  | mk p ob =>
    cases ob with
    | none =>
      rw [wtStep_none m e p hparse]
      exact h
    | some b' =>
      rw [wtStep_some m e p b' hparse]
      by_cases hcond : (!p.data.isEmpty && !b'.data.isEmpty) = true
      · rw [if_pos hcond]
        by_cases hb : b' = branch
        · subst hb
          have hp := hagree p hparse
          subst hp
          exact mem_mapSet_insert m b' ⟨p, some b'⟩
        · exact mem_mapSet_other m b' ⟨p, some b'⟩ branch ⟨path, some branch⟩ h
            (fun hh => hb hh.symm)
      · rw [if_neg hcond]
        exact h

theorem fold_val_complete (path branch : String) :
    ∀ (E : List String),
      (∀ e ∈ E, ∀ p', parseWorktreeEntry e = (p', some branch) → p' = path) →
      ∀ (m : List (String × WorktreeInfo)),
        ((branch, (⟨path, some branch⟩ : WorktreeInfo)) ∈ m ∨
          ∃ e ∈ E, parseWorktreeEntry e = (path, some branch) ∧
            (!path.data.isEmpty && !branch.data.isEmpty) = true) →
        (branch, (⟨path, some branch⟩ : WorktreeInfo)) ∈ E.foldl wtStep m := by
  intro E
  induction E with
  | nil =>
    intro _ m h
    rcases h with h | ⟨e, he, -⟩
    · exact h
    · exact absurd he (List.not_mem_nil e)
  | cons e E' ih =>
    intro hagree m h
    simp only [List.foldl_cons]
    apply ih (fun x hx => hagree x (List.mem_cons_of_mem e hx))
    rcases h with h | ⟨e', he', hpe', hcond'⟩
    · exact Or.inl (wtStep_val_mem m e path branch (hagree e (List.mem_cons_self e E')) h)
    · rcases List.mem_cons.mp he' with rfl | he''
      · left
        rw [wtStep_some m e' path branch hpe', if_pos hcond']
        exact mem_mapSet_insert m branch ⟨path, some branch⟩
      · exact Or.inr ⟨e', he'', hpe', hcond'⟩

theorem worktreeEntries_of_empty (exec : GitExec)
    (h : (git exec ["worktree", "list", "--porcelain"]).stdout.data.isEmpty = true) :
    worktreeEntries exec = [] := by
  unfold worktreeEntries
  rw [show (git exec ["worktree", "list", "--porcelain"]).stdout = ⟨[]⟩ from by
    cases hs : (git exec ["worktree", "list", "--porcelain"]).stdout
    simp_all]
  decide

/-- Claim C9: the worktree map has at most one entry per branch (keys are
distinct); every entry maps a nonempty branch name to a worktree with a
nonempty path and that same checked-out branch, arising from a porcelain
entry after the first (the primary worktree is skipped; detached entries,
having no branch line, can never produce an entry); and conversely every
porcelain entry after the first that parses to a nonempty path and a nonempty
checked-out branch does put that branch into the map — mapped to that
worktree's path whenever no other entry claims the same branch with a
different path (git keeps each branch in at most one worktree). -/
theorem worktrees_registry (exec : GitExec) :
    ((getWorktrees exec).map Prod.fst).Nodup ∧
    (∀ p ∈ getWorktrees exec,
      p.2.branch = some p.1 ∧ p.2.path.data ≠ [] ∧ p.1.data ≠ [] ∧
        ∃ entry ∈ (worktreeEntries exec).drop 1,
          parseWorktreeEntry entry = (p.2.path, some p.1)) ∧
    (∀ entry ∈ (worktreeEntries exec).drop 1, ∀ path branch,
      parseWorktreeEntry entry = (path, some branch) →
      path.data ≠ [] → branch.data ≠ [] →
        (∃ wi, (branch, wi) ∈ getWorktrees exec) ∧
        ((∀ e ∈ (worktreeEntries exec).drop 1, ∀ p',
            parseWorktreeEntry e = (p', some branch) → p' = path) →
          (branch, (⟨path, some branch⟩ : WorktreeInfo)) ∈ getWorktrees exec)) := by
  have key :
      ((getWorktrees exec).map Prod.fst).Nodup ∧
        ∀ p ∈ getWorktrees exec, WtEntryOk ((worktreeEntries exec).drop 1) p := by
    unfold getWorktrees
    by_cases hso : (git exec ["worktree", "list", "--porcelain"]).stdout.data.isEmpty = true
    · simp [hso]
    · rw [if_neg (by simpa using hso)]
      exact getWorktrees_fold _ _ (fun e he => he) [] (by simp) (by simp)
  refine ⟨key.1, fun p hp => key.2 p hp, ?_⟩
  intro entry hentry path branch hparse hpath hbranch
  by_cases hso : (git exec ["worktree", "list", "--porcelain"]).stdout.data.isEmpty = true
  · rw [worktreeEntries_of_empty exec hso] at hentry
    exact absurd hentry (List.not_mem_nil entry)
  · have hget : getWorktrees exec = ((worktreeEntries exec).drop 1).foldl wtStep [] := by
      unfold getWorktrees
      rw [if_neg (by simpa using hso)]
    have hcond : (!path.data.isEmpty && !branch.data.isEmpty) = true := by
      simp only [Bool.and_eq_true, Bool.not_eq_true', List.isEmpty_eq_false]
      exact ⟨hpath, hbranch⟩
    constructor
    · rw [hget]
      exact fold_key_complete branch _ [] (Or.inr ⟨entry, hentry, path, hparse, hcond⟩)
    · intro hagree
      rw [hget]
      exact fold_val_complete path branch _ hagree []
        (Or.inr ⟨entry, hentry, hparse, hcond⟩)


theorem lookup_map_self (g : Nat → BranchInfo) :
    ∀ (l : List Nat) (j : Nat), j ∈ l →
      List.lookup j (l.map (fun x => (x, g x))) = some (g j) := by
  intro l
  induction l with
  | nil => intro j hj; exact absurd hj (List.not_mem_nil j)
  | cons x t ih =>
    intro j hj
    simp only [List.map_cons, List.lookup]
    by_cases hx : j = x
    · subst hx
      simp
    · have hbe : (j == x) = false := by simpa using hx
      rw [hbe]
      exact ih j (List.mem_cons.mp hj |>.resolve_left hx)

theorem range_map_getD (f : String → BranchInfo) :
    ∀ (l : List String),
      (List.range l.length).map (fun j => f (l.getD j "")) = l.map f := by
  intro l
  induction l with
  | nil => simp
  | cons x t ih =>
    simp only [List.length_cons, List.range_succ_eq_map, List.map_cons, List.map_map]
    refine congrArg (f ((x :: t).getD 0 "") :: ·) ?_
    have : ∀ j : Nat, ((x :: t).getD (j + 1) "") = t.getD j "" := fun j => rfl
    calc (List.range t.length).map ((fun j => f ((x :: t).getD j "")) ∘ Nat.succ)
        = (List.range t.length).map (fun j => f (t.getD j "")) := by
          apply List.map_congr_left
          intro j _
          rfl
      _ = t.map f := ih

/-- Claim C4: for every completion order (a permutation of the branch
indices), the assembled result of the scheduled analysis equals the
enumeration-order map of `classifyBranch` over `getLocalBranches` — one
`BranchInfo` per branch, names in enumeration order — and it is empty when
the repository has no local branches besides `main`. -/
theorem analyze_order_invariant (exec : GitExec) (order : List Nat)
    (horder : order.Perm (List.range (getLocalBranches exec).length)) :
    (analyzeSchedule exec order).1 =
      (getLocalBranches exec).map (fun b => ⟨b, classifyBranch exec b⟩) ∧
    (analyzeSchedule exec order).1.map BranchInfo.name = getLocalBranches exec ∧
    analyzeBranches exec =
      (getLocalBranches exec).map (fun b => ⟨b, classifyBranch exec b⟩) ∧
    (getLocalBranches exec = [] →
      (analyzeSchedule exec order).1 = [] ∧ analyzeBranches exec = []) := by
  have hmain : (analyzeSchedule exec order).1 =
      (getLocalBranches exec).map (fun b => ⟨b, classifyBranch exec b⟩) := by
    unfold analyzeSchedule
    by_cases hn : (getLocalBranches exec).length = 0
    · rw [List.length_eq_zero] at hn
      simp [hn]
    · rw [if_neg (by simpa using hn)]
      have hfil :
          order.filter (fun j => j < (getLocalBranches exec).length) = order := by
        apply List.filter_eq_self.mpr
        intro j hj
        have : j ∈ List.range (getLocalBranches exec).length := horder.mem_iff.mp hj
        simpa using List.mem_range.mp this
      unfold completions
      rw [hfil]
      have hlookup : ∀ j < (getLocalBranches exec).length,
          (List.lookup j (order.map (fun i =>
            ((fun i => (i, (⟨(getLocalBranches exec).getD i "",
              classifyBranch exec ((getLocalBranches exec).getD i "")⟩ : BranchInfo))) i)))) =
            some ⟨(getLocalBranches exec).getD j "",
              classifyBranch exec ((getLocalBranches exec).getD j "")⟩ := by
        intro j hj
        exact lookup_map_self
          (fun i => ⟨(getLocalBranches exec).getD i "",
            classifyBranch exec ((getLocalBranches exec).getD i "")⟩) order j
          (horder.mem_iff.mpr (List.mem_range.mpr hj))
      calc (List.range (getLocalBranches exec).length).map
            (fun j => ((order.map fun i =>
              (i, (⟨(getLocalBranches exec).getD i "",
                classifyBranch exec ((getLocalBranches exec).getD i "")⟩ : BranchInfo))).lookup
                  j).getD ⟨"", .active⟩)
          = (List.range (getLocalBranches exec).length).map
              (fun j => (⟨(getLocalBranches exec).getD j "",
                classifyBranch exec ((getLocalBranches exec).getD j "")⟩ : BranchInfo)) := by
            apply List.map_congr_left
            intro j hj
            rw [hlookup j (List.mem_range.mp hj)]
            rfl
        _ = (getLocalBranches exec).map (fun b => ⟨b, classifyBranch exec b⟩) :=
            range_map_getD (fun b => ⟨b, classifyBranch exec b⟩) (getLocalBranches exec)
  have hana : analyzeBranches exec =
      (getLocalBranches exec).map (fun b => ⟨b, classifyBranch exec b⟩) := by
    unfold analyzeBranches
    by_cases hn : (getLocalBranches exec).length = 0
    · rw [List.length_eq_zero] at hn
      simp [hn]
    · rw [if_neg hn]
  refine ⟨hmain, ?_, hana, fun hnil => ?_⟩
  · rw [hmain, List.map_map]
    have : (BranchInfo.name ∘ fun b => (⟨b, classifyBranch exec b⟩ : BranchInfo)) = id := by
      funext b
      rfl
    rw [this, List.map_id]
  · constructor
    · rw [hmain, hnil]
      rfl
    · rw [hana, hnil]
      rfl

/-- A repository whose branch listing holds `alpha`, `beta` and `main`;
every other command fails with empty output. -/
def execTwoBranches : GitExec := fun args =>
  if args = ["branch", "--list", "--format=%(refname:short)"] then ⟨true, "alpha\nbeta\nmain"⟩
  else ⟨false, ""⟩

/-- Claim C4, witnessed at a concrete repository with branches `alpha` and
`beta` completing in reversed order: the results stay in enumeration
order. -/
theorem analyze_order_invariant_witness :
    (analyzeSchedule execTwoBranches [1, 0]).1 =
        [⟨"alpha", .merged⟩, ⟨"beta", .merged⟩] ∧
      (analyzeSchedule execTwoBranches [1, 0]).1.map BranchInfo.name = ["alpha", "beta"] := by
  have h := analyze_order_invariant execTwoBranches [1, 0] (by decide)
  exact ⟨h.1.trans (by decide), h.2.1.trans (by decide)⟩

end Broom
